import Mathlib

/-!
Verification of the `wordtrie` repository: a shallow embedding of
`src/wordtrie/trie.py` (the `Trie` class) and of the tile table of
`src/wordtrie/scrabble.py`, together with theorems settling the spec claims.

Python strings are modelled as `List Char`; Python's runtime errors that the
code can raise (`assert` failures and list index errors) are modelled
explicitly, and mutating methods return the updated trie so that partial
mutation before an error is observable, exactly as in Python.
-/

set_option maxHeartbeats 1000000

/-- Runtime errors the Python code can raise: `assertionError` models a failed
`assert` statement (the error kind the spec names `InvalidCharacter`);
`indexError` models an out-of-range Python list index. -/
inductive PyErr where
  | assertionError
  | indexError
deriving DecidableEq

/-- Shallow embedding of the `Trie` node of `trie.py`: `is_word` is
`self.is_word`, `children` is `self.children` (either `None` or a list of 26
optional child tries), `n_descendants` is `self.n_descendants`. -/
inductive Trie where
  | mk (is_word : Bool) (children : Option (List (Option Trie))) (n_descendants : Nat)

/-- Accessor for the `is_word` field. -/
def Trie.is_word : Trie → Bool
  | .mk b _ _ => b

/-- Accessor for the `children` field. -/
def Trie.children : Trie → Option (List (Option Trie))
  | .mk _ cs _ => cs

/-- Accessor for the `n_descendants` field. -/
def Trie.n_descendants : Trie → Nat
  | .mk _ _ n => n

/-- `Trie.__init__`: `is_word = False`, `children = None`, `n_descendants = 0`. -/
def emptyTrie : Trie := .mk false none 0

/-- Python list indexing `l[i]` for a possibly negative index `i`: a
nonnegative index in range reads directly, a negative index `i` with
`-len(l) <= i` reads `l[len(l) + i]`, anything else raises `IndexError`. -/
def pyGet (l : List (Option Trie)) (i : Int) : Except PyErr (Option Trie) :=
  if 0 ≤ i then
    if i.toNat < l.length then .ok (l.getD i.toNat none) else .error .indexError
  else
    if (-i).toNat ≤ l.length then .ok (l.getD (l.length - (-i).toNat) none)
    else .error .indexError

/-- `Trie.insert`: walks/creates the path for `word`.  The returned trie is the
state of `self` after the call, and the second component is the error raised,
if any; on `assert` failure the mutations already performed persist, as in
Python.  An empty `word` marks the node as a word; otherwise the first
character is checked to be in `A`-`Z` (`assert`), the children list is created
if absent, the child slot is created if empty, `n_descendants` is incremented
on the current node, and insertion recurses into the child. -/
def Trie.insert : Trie → List Char → Trie × Option PyErr
  | t, [] => (.mk true t.children t.n_descendants, none)
  | t, c :: rest =>
    if 'A' ≤ c ∧ c ≤ 'Z' then
      let cs := t.children.getD (List.replicate 26 none)
      let idx := c.toNat - 65
      let child := (cs.getD idx none).getD emptyTrie
      let res := Trie.insert child rest
      (.mk t.is_word (some (cs.set idx (some res.1))) (t.n_descendants + 1), res.2)
    else (t, some .assertionError)

/-- `Trie.__getitem__`: follow the path of `p` from this node; returns the
reached node, `none` when the path breaks (missing children list, falsy
children list, or empty slot), or propagates an `IndexError` from Python's
`self.children[ord(c) - ord('A')]` indexing. -/
def Trie.getItem : Trie → List Char → Except PyErr (Option Trie)
  | t, [] => .ok (some t)
  | t, c :: rest =>
    match t.children with
    | none => .ok none
    | some cs =>
      if cs.isEmpty then .ok none
      else
        match pyGet cs ((c.toNat : Int) - 65) with
        | .error e => .error e
        | .ok none => .ok none
        | .ok (some child) => Trie.getItem child rest

/-- `Trie.__contains__`: `node = self[word]; node is not None and node.is_word`. -/
def Trie.contains (t : Trie) (w : List Char) : Except PyErr Bool :=
  match t.getItem w with
  | .error e => .error e
  | .ok none => .ok false
  | .ok (some node) => .ok node.is_word

/-- The `for idx, child in enumerate(self.children)` loop in the wildcard
branch of `Trie.traverse`: visits slots left to right, skipping empty ones,
and concatenates the yields of `f child (acc ++ [letter at idx])`; a raised
error stops the loop, keeping the yields produced before it. -/
def kidsLoop (f : Trie → List Char → List (List Char) × Option PyErr)
    (acc : List Char) : List (Option Trie) → Nat → List (List Char) × Option PyErr
  | [], _ => ([], none)
  | none :: tl, idx => kidsLoop f acc tl (idx + 1)
  | some child :: tl, idx =>
    let res := f child (acc ++ [Char.ofNat (idx + 65)])
    match res.2 with
    | some err => (res.1, some err)
    | none =>
      let res2 := kidsLoop f acc tl (idx + 1)
      (res.1 ++ res2.1, res2.2)

/-- `Trie.traverse`, with the pattern as first (recursion) argument and the
accumulated word `acc` as the `prefix` parameter.  The result is the list of
all strings the generator yields, paired with the error it raises, if any
(yields produced before the error are kept).  Empty pattern yields `acc` when
the node is a word; a falsy `children` ends the branch; `'.'` loops over all
children in slot order; a concrete character `c` indexes
`self.children[ord(c) - ord('A')]` with Python indexing semantics. -/
def traverseGo : List Char → Trie → List Char → List (List Char) × Option PyErr
  | [], t, acc => (if t.is_word then [acc] else [], none)
  | c :: rest, t, acc =>
    match t.children with
    | none => ([], none)
    | some cs =>
      if cs.isEmpty then ([], none)
      else if c = '.' then kidsLoop (traverseGo rest) acc cs 0
      else
        match pyGet cs ((c.toNat : Int) - 65) with
        | .error e => ([], some e)
        | .ok none => ([], none)
        | .ok (some child) => traverseGo rest child (acc ++ [c])

/-- `trie.traverse(pattern)` with the default `prefix=""`. -/
def Trie.traverse (t : Trie) (pat : List Char) : List (List Char) × Option PyErr :=
  traverseGo pat t []

/-- The loop of `Trie.from_words`: insert each word after uppercasing; an
error raised by `insert` aborts the loop (the exception propagates), keeping
the partially built trie. -/
def fromWordsGo : Trie → List (List Char) → Trie × Option PyErr
  | t, [] => (t, none)
  | t, w :: ws =>
    let res := t.insert (w.map Char.toUpper)
    match res.2 with
    | some err => (res.1, some err)
    | none => fromWordsGo res.1 ws

/-- `Trie.from_words`: fold `insert` over the uppercased words starting from a
fresh root. -/
def Trie.from_words (ws : List (List Char)) : Trie × Option PyErr :=
  fromWordsGo emptyTrie ws

/-- A sequence of plain `insert` calls on a trie, one per word, keeping the
trie state across calls (exceptions, if any, do not destroy the state). -/
def insertAll : Trie → List (List Char) → Trie
  | t, [] => t
  | t, w :: ws => insertAll (t.insert w).1 ws

/-- The trie obtained by inserting the given words, in order, into an empty
trie. -/
def buildTrie (ws : List (List Char)) : Trie := insertAll emptyTrie ws

/-- A character the trie accepts: uppercase `A`-`Z`. -/
def goodChar (c : Char) : Bool := decide ('A' ≤ c) && decide (c ≤ 'Z')

/-- A word over `A`-`Z`. -/
def goodWord (w : List Char) : Bool := w.all goodChar

/-- A pattern character: `A`-`Z` or the wildcard `'.'`. -/
def patChar (c : Char) : Bool := c = '.' || goodChar c

/-- Specification-side membership: the word is stored in the trie, i.e. its
letter path (over `A`-`Z` only) exists and ends at a node with `is_word`. -/
def storedB : Trie → List Char → Bool
  | t, [] => t.is_word
  | t, c :: rest =>
    if goodChar c then
      match t.children with
      | none => false
      | some cs =>
        match cs.getD (c.toNat - 65) none with
        | none => false
        | some child => storedB child rest
    else false

/-- Specification-side observation: the `n_descendants` field of the node
reached by the given letter path, or `none` when no such node exists. -/
def descAt : Trie → List Char → Option Nat
  | t, [] => some t.n_descendants
  | t, c :: rest =>
    match t.children with
    | none => none
    | some cs =>
      match cs.getD (c.toNat - 65) none with
      | none => none
      | some child => descAt child rest

/-- Position-by-position pattern matching: the word has the same length as
the pattern and each pattern character is `'.'` or equal to the word's
character at that position. -/
def matchesB : List Char → List Char → Bool
  | [], [] => true
  | p :: ps, c :: cs => (p = '.' || p = c) && matchesB ps cs
  | _, _ => false

/-- Strict lexicographic order on words (by character code). -/
def lexLt : List Char → List Char → Bool
  | [], [] => false
  | [], _ :: _ => true
  | _ :: _, [] => false
  | a :: as, b :: bs => if a < b then true else if a = b then lexLt as bs else false

/-- Well-formedness of a trie node as the Python code maintains it: the
children list, when present, has exactly 26 slots, and every child is itself
well formed. -/
inductive WF : Trie → Prop where
  | leaf : ∀ (b : Bool) (n : Nat), WF (.mk b none n)
  | node : ∀ (b : Bool) (n : Nat) (cs : List (Option Trie)), cs.length = 26 →
      (∀ c ∈ cs, ∀ t, c = some t → WF t) → WF (.mk b (some cs) n)

/-- The letter groups and per-letter counts assigned to `default_tiles` in
`scrabble.py`, in source order. -/
def tileGroups : List (List Char × Nat) :=
  [(['E'], 12), (['A', 'I'], 9), (['O'], 8), (['N', 'R', 'T'], 6),
   (['L', 'S', 'D', 'U'], 4), (['G'], 3),
   (['B', 'C', 'M', 'P', 'F', 'H', 'V', 'W', 'Y'], 2),
   (['K', 'J', 'X', 'Q', 'Z'], 1)]

/-- `default_tiles` of `scrabble.py` as a letter-count function: the count a
letter is assigned by the group loops (a `Counter` returns 0 for a letter
never assigned). -/
def default_tiles (c : Char) : Nat :=
  tileGroups.foldl (fun acc g => if c ∈ g.1 then g.2 else acc) 0

/-- `sum(default_tiles.values())`: all keys ever assigned are among `A`-`Z`,
so the total is the sum of the counts over the 26 letters. -/
def tilesTotal : Nat :=
  ((List.range 26).map (fun i => default_tiles (Char.ofNat (65 + i)))).sum

/-! ### Concrete words used by the concrete-scenario claims -/

def wCAT : List Char := ['C', 'A', 'T']

def wCAR : List Char := ['C', 'A', 'R']

def wCARD : List Char := ['C', 'A', 'R', 'D']

def wDOG : List Char := ['D', 'O', 'G']

/-- The trie of the spec's concrete scenario: CAT, CAR, CARD, DOG inserted in
that order into an empty trie. -/
def demoTrie : Trie := buildTrie [wCAT, wCAR, wCARD, wDOG]

/-- Claim C4 is false as stated: on the scenario trie, `traverse("CA.")`
yields `["CAR", "CAT"]` (the stored three-letter words CAR and CAT both match
`CA.`), not exactly `["CAR"]`; likewise `traverse("C..")` yields
`["CAR", "CAT"]`, not `["CAT"]`, and `traverse("...")` yields
`["CAR", "CAT", "DOG"]`, not `["CAT", "DOG"]`. -/
theorem C4_counterexample :
    demoTrie.traverse ['C', 'A', '.'] = ([wCAR, wCAT], none) ∧
    [wCAR, wCAT] ≠ [wCAR] ∧
    demoTrie.traverse ['C', '.', '.'] = ([wCAR, wCAT], none) ∧
    [wCAR, wCAT] ≠ [wCAT] ∧
    demoTrie.traverse ['.', '.', '.'] = ([wCAR, wCAT, wDOG], none) ∧
    [wCAR, wCAT, wDOG] ≠ [wCAT, wDOG] := by
  refine ⟨rfl, by decide, rfl, by decide, rfl, by decide⟩

/-- Claim C4 as amended: after inserting exactly CAT, CAR, CARD, DOG into an
empty trie, `contains("CAR")` is true, `contains("CA")` is false,
`traverse("CA.")` yields exactly `["CAR", "CAT"]`, `traverse("C..")` yields
exactly `["CAR", "CAT"]`, `traverse("C...")` yields exactly `["CARD"]`, and
`traverse("...")` yields exactly `["CAR", "CAT", "DOG"]`, each in that order
and with no error raised. -/
theorem C4_amended :
    demoTrie.contains wCAR = .ok true ∧
    demoTrie.contains ['C', 'A'] = .ok false ∧
    demoTrie.traverse ['C', 'A', '.'] = ([wCAR, wCAT], none) ∧
    demoTrie.traverse ['C', '.', '.'] = ([wCAR, wCAT], none) ∧
    demoTrie.traverse ['C', '.', '.', '.'] = ([wCARD], none) ∧
    demoTrie.traverse ['.', '.', '.'] = ([wCAR, wCAT, wDOG], none) :=
  ⟨rfl, rfl, rfl, rfl, rfl, rfl⟩

/-- Claim C9 is false as stated: the per-letter counts of `default_tiles`
total 98 tiles (the standard distribution minus the two blanks), not 100. -/
theorem C9_counterexample : tilesTotal = 98 ∧ (98 : Nat) ≠ 100 := ⟨rfl, by decide⟩

/-- Claim C9 as amended: `default_tiles` assigns exactly E=12, A/I=9, O=8,
N/R/T=6, L/S/D/U=4, G=3, B/C/M/P/F/H/V/W/Y=2, K/J/X/Q/Z=1 (and 0 to anything
else, e.g. a lowercase letter), and these counts total 98 tiles — the
standard 100-tile set excluding its 2 blanks. -/
theorem C9_amended :
    default_tiles 'E' = 12 ∧
    default_tiles 'A' = 9 ∧ default_tiles 'I' = 9 ∧
    default_tiles 'O' = 8 ∧
    default_tiles 'N' = 6 ∧ default_tiles 'R' = 6 ∧ default_tiles 'T' = 6 ∧
    default_tiles 'L' = 4 ∧ default_tiles 'S' = 4 ∧ default_tiles 'D' = 4 ∧
    default_tiles 'U' = 4 ∧
    default_tiles 'G' = 3 ∧
    default_tiles 'B' = 2 ∧ default_tiles 'C' = 2 ∧ default_tiles 'M' = 2 ∧
    default_tiles 'P' = 2 ∧ default_tiles 'F' = 2 ∧ default_tiles 'H' = 2 ∧
    default_tiles 'V' = 2 ∧ default_tiles 'W' = 2 ∧ default_tiles 'Y' = 2 ∧
    default_tiles 'K' = 1 ∧ default_tiles 'J' = 1 ∧ default_tiles 'X' = 1 ∧
    default_tiles 'Q' = 1 ∧ default_tiles 'Z' = 1 ∧
    default_tiles 'e' = 0 ∧
    tilesTotal = 98 := by decide

/-- Claim C5 is false as stated: the string `"@"` is never inserted into the
trie built from the single word `"Z"`, yet `contains("@")` returns true —
Python's negative list indexing (`ord('@') - ord('A') = -1`) wraps around to
the `'Z'` slot. -/
theorem C5_counterexample :
    (buildTrie [['Z']]).contains ['@'] = .ok true ∧ ['@'] ≠ ['Z'] :=
  ⟨rfl, by decide⟩

/-- Claim C6 is false as stated: on the trie built from `"CAT"`, the pattern
`"a"` (lowercase, outside `{A-Z, '.'}`) makes `traverse` raise `IndexError`
(index `ord('a') - ord('A') = 32` is out of range for the 26-slot list), and
the pattern `"@"` on the trie built from `"Z"` yields the result `"@"`
(negative index wrap-around), so traversal neither always avoids errors nor
always yields nothing. -/
theorem C6_counterexample :
    (buildTrie [wCAT]).traverse ['a'] = ([], some .indexError) ∧
    (buildTrie [['Z']]).traverse ['@'] = ([['@']], none) ∧
    [['@']] ≠ ([] : List (List Char)) :=
  ⟨rfl, rfl, by decide⟩

/-- Claim C7 is false as stated: after the single operation `insert("A")`,
one insert operation passed through the edge leading to the node for `"A"`,
yet that node's `n_descendants` is 0 — the code increments the counter on the
node it is leaving (the parent), so an insertion ending exactly at a node is
not counted there. -/
theorem C7_counterexample :
    descAt (buildTrie [['A']]) ['A'] = some 0 ∧
    (([['A']] : List (List Char)).countP (fun w => decide (['A'] <+: w)) = 1) ∧
    (0 : Nat) ≠ 1 :=
  ⟨rfl, by decide, by decide⟩

/-! ### Character toolkit -/

theorem char_le_iff {a b : Char} : a ≤ b ↔ a.toNat ≤ b.toNat := Iff.rfl

theorem char_lt_iff {a b : Char} : a < b ↔ a.toNat < b.toNat := Iff.rfl

theorem char_toNat_inj {a b : Char} (h : a.toNat = b.toNat) : a = b :=
  Char.ext (UInt32.ext h)

theorem goodChar_iff {c : Char} : goodChar c = true ↔ ('A' ≤ c ∧ c ≤ 'Z') := by
  simp [goodChar]

theorem goodChar_bounds {c : Char} (h : goodChar c = true) :
    65 ≤ c.toNat ∧ c.toNat ≤ 90 := by
  rcases goodChar_iff.mp h with ⟨h1, h2⟩
  exact ⟨char_le_iff.mp h1, char_le_iff.mp h2⟩

theorem toNat_ofNat_valid {n : Nat} (h : n < 55296) : (Char.ofNat n).toNat = n := by
  have hv : Nat.isValidChar n := Or.inl h
  rw [Char.ofNat, dif_pos hv]
  rfl

theorem goodChar_ofNat {j : Nat} (h : j < 26) : goodChar (Char.ofNat (j + 65)) = true := by
  have ht : (Char.ofNat (j + 65)).toNat = j + 65 := toNat_ofNat_valid (by omega)
  refine goodChar_iff.mpr ⟨char_le_iff.mpr ?_, char_le_iff.mpr ?_⟩
  · show 65 ≤ (Char.ofNat (j + 65)).toNat
    omega
  · show (Char.ofNat (j + 65)).toNat ≤ 90
    omega

theorem good_ofNat_sub {c : Char} (h : goodChar c = true) :
    Char.ofNat ((c.toNat - 65) + 65) = c := by
  have hb := goodChar_bounds h
  apply char_toNat_inj
  rw [toNat_ofNat_valid (by omega)]
  omega

theorem goodChar_ne_dot {c : Char} (h : goodChar c = true) : c ≠ '.' := by
  intro he
  subst he
  simp [goodChar, char_le_iff] at h

/-! ### Basic simp lemmas for the embedding -/

@[simp] theorem is_word_mk (b : Bool) (ch : Option (List (Option Trie))) (n : Nat) :
    (Trie.mk b ch n).is_word = b := rfl

@[simp] theorem children_mk (b : Bool) (ch : Option (List (Option Trie))) (n : Nat) :
    (Trie.mk b ch n).children = ch := rfl

@[simp] theorem n_descendants_mk (b : Bool) (ch : Option (List (Option Trie))) (n : Nat) :
    (Trie.mk b ch n).n_descendants = n := rfl

/-! ### Well-formedness lemmas -/

theorem WF_empty : WF emptyTrie := WF.leaf false 0

theorem WF_childList {b : Bool} {n : Nat} {cs : List (Option Trie)}
    (h : WF (.mk b (some cs) n)) :
    cs.length = 26 ∧ ∀ x ∈ cs, ∀ u, x = some u → WF u := by
  cases h with
  | node _ _ _ hl hm => exact ⟨hl, hm⟩

theorem WF_getD {cs : List (Option Trie)}
    (hm : ∀ x ∈ cs, ∀ u, x = some u → WF u) (j : Nat) :
    WF ((cs.getD j none).getD emptyTrie) := by
  cases hget : cs.getD j none with
  | none => exact WF_empty
  | some u =>
    have hmem : (some u) ∈ cs := by
      have : cs[j]? = some (some u) := by
        rcases Nat.lt_or_ge j cs.length with hj | hj
        · rw [List.getD_eq_getElem?_getD, List.getElem?_eq_getElem hj] at hget
          rw [List.getElem?_eq_getElem hj]
          simpa using hget
        · rw [List.getD_eq_getElem?_getD, List.getElem?_eq_none hj] at hget
          simp at hget
      exact List.getElem?_mem this
    simp [List.getD_eq_getElem?_getD] at hget
    exact hm _ hmem u rfl

theorem length_childList {t : Trie} (hWF : WF t) :
    (t.children.getD (List.replicate 26 none)).length = 26 := by
  obtain ⟨b, ch, n⟩ := t
  cases ch with
  | none => simp
  | some cs => simpa using (WF_childList hWF).1

theorem members_childList {t : Trie} (hWF : WF t) :
    ∀ x ∈ t.children.getD (List.replicate 26 none), ∀ u, x = some u → WF u := by
  obtain ⟨b, ch, n⟩ := t
  cases ch with
  | none =>
    intro x hx u hxu
    simp at hx
    subst hx
    cases hxu
  | some cs =>
    simpa using (WF_childList hWF).2

/-- `insert` keeps the trie well formed (for any word, valid or not). -/
theorem WF_insert (w : List Char) : ∀ t : Trie, WF t → WF (t.insert w).1 := by
  induction w with
  | nil =>
    intro t h
    obtain ⟨b, ch, n⟩ := t
    cases h with
    | leaf => exact WF.leaf true n
    | node _ _ cs hl hm => exact WF.node true n cs hl hm
  | cons c rest ih =>
    intro t h
    by_cases hc : 'A' ≤ c ∧ c ≤ 'Z'
    · obtain ⟨b, ch, n⟩ := t
      simp only [Trie.insert, if_pos hc]
      refine WF.node _ _ _ ?_ ?_
      · rw [List.length_set]
        exact length_childList h
      · intro x hx u hxu
        subst hxu
        rcases List.mem_or_eq_of_mem_set hx with hmem | heq
        · exact members_childList h _ hmem u rfl
        · have hwfc := WF_getD (members_childList h) (c.toNat - 65)
          have := ih _ hwfc
          injection heq with heq2
          rw [heq2]
          exact this
    · obtain ⟨b, ch, n⟩ := t
      simpa only [Trie.insert, if_neg hc] using h

/-- A trie built by any sequence of `insert` calls from a well-formed trie is
well formed. -/
theorem WF_insertAll (ws : List (List Char)) : ∀ t : Trie, WF t → WF (insertAll t ws) := by
  induction ws with
  | nil => intro t h; exact h
  | cons w ws ih => intro t h; exact ih _ (WF_insert w t h)

theorem WF_buildTrie (ws : List (List Char)) : WF (buildTrie ws) :=
  WF_insertAll ws emptyTrie WF_empty

/-- `insert` raises exactly when the word has a character outside `A`-`Z`,
and the error is the `assert` failure (`InvalidCharacter`). -/
theorem insert_err (w : List Char) : ∀ t : Trie,
    (t.insert w).2 = if goodWord w then none else some .assertionError := by
  induction w with
  | nil =>
    intro t
    simp [Trie.insert, goodWord]
  | cons c rest ih =>
    intro t
    by_cases hc : 'A' ≤ c ∧ c ≤ 'Z'
    · have hgc : goodChar c = true := goodChar_iff.mpr hc
      simp only [Trie.insert, if_pos hc]
      rw [ih]
      simp [goodWord, hgc]
    · have hgc : goodChar c = false := by
        rw [← Bool.not_eq_true]
        intro hgc
        exact hc (goodChar_iff.mp hgc)
      simp only [Trie.insert, if_neg hc]
      simp [goodWord, hgc]

/-! ### Child-slot view of a node -/

/-- The child slot for index `j`: the `j`-th entry of the children list, with
an absent children list read as all-empty slots. -/
def childSlot (t : Trie) (j : Nat) : Option Trie :=
  (t.children.getD (List.replicate 26 none)).getD j none

theorem WF_childSlot {t : Trie} (hWF : WF t) (j : Nat) :
    WF ((childSlot t j).getD emptyTrie) :=
  WF_getD (members_childList hWF) j

theorem getD_replicate_none (j : Nat) :
    (List.replicate 26 (none : Option Trie)).getD j none = none := by
  rw [List.getD_eq_getElem?_getD, List.getElem?_replicate]
  split <;> rfl

@[simp] theorem descAt_nil (t : Trie) : descAt t [] = some t.n_descendants := rfl

theorem descAt_cons (t : Trie) (c : Char) (q : List Char) :
    descAt t (c :: q) = (childSlot t (c.toNat - 65)).bind (fun u => descAt u q) := by
  obtain ⟨b, ch, n⟩ := t
  cases ch with
  | none =>
    simp only [descAt, childSlot, children_mk, Option.getD_none, getD_replicate_none,
      Option.none_bind]
  | some cs =>
    simp only [descAt, childSlot, children_mk, Option.getD_some]
    cases cs.getD (c.toNat - 65) none <;> simp

@[simp] theorem storedB_nil (t : Trie) : storedB t [] = t.is_word := rfl

theorem storedB_cons (t : Trie) (c : Char) (q : List Char) :
    storedB t (c :: q) =
      if goodChar c then (childSlot t (c.toNat - 65)).elim false (fun u => storedB u q)
      else false := by
  obtain ⟨b, ch, n⟩ := t
  cases ch with
  | none =>
    simp only [storedB, childSlot, children_mk, Option.getD_none, getD_replicate_none,
      Option.elim_none]
  | some cs =>
    simp only [storedB, childSlot, children_mk, Option.getD_some]
    cases cs.getD (c.toNat - 65) none <;> simp

/-! ### Frame lemmas for one `insert` step -/

theorem insert_nil_eq (t : Trie) : (t.insert []).1 = Trie.mk true t.children t.n_descendants := rfl

theorem insert_cons_n {t : Trie} {c : Char} {rest : List Char} (hc : 'A' ≤ c ∧ c ≤ 'Z') :
    ((t.insert (c :: rest)).1).n_descendants = t.n_descendants + 1 := by
  simp only [Trie.insert, if_pos hc, n_descendants_mk]

theorem insert_cons_is_word {t : Trie} {c : Char} {rest : List Char} (hc : 'A' ≤ c ∧ c ≤ 'Z') :
    ((t.insert (c :: rest)).1).is_word = t.is_word := by
  simp only [Trie.insert, if_pos hc, is_word_mk]

theorem insert_cons_childSlot {t : Trie} {c : Char} {rest : List Char}
    (hc : 'A' ≤ c ∧ c ≤ 'Z') (hWF : WF t) (j : Nat) (hj : j < 26) :
    childSlot (t.insert (c :: rest)).1 j =
      if j = c.toNat - 65 then
        some (((childSlot t (c.toNat - 65)).getD emptyTrie).insert rest).1
      else childSlot t j := by
  have hb := goodChar_bounds (goodChar_iff.mpr hc)
  have hlen := length_childList hWF
  simp only [Trie.insert, if_pos hc, childSlot, children_mk, Option.getD_some]
  by_cases hjc : j = c.toNat - 65
  · subst hjc
    rw [if_pos rfl, List.getD_eq_getElem?_getD, List.getElem?_set_self (by omega)]
    rfl
  · rw [if_neg hjc, List.getD_eq_getElem?_getD,
      List.getElem?_set_ne (fun h => hjc h.symm), ← List.getD_eq_getElem?_getD]

theorem goodWord_cons {d : Char} {qr : List Char} (h : goodWord (d :: qr) = true) :
    goodChar d = true ∧ goodWord qr = true := by
  simpa [goodWord] using h


theorem descAt_empty : ∀ q : List Char, descAt emptyTrie q = if q = [] then some 0 else none
  | [] => by simp [emptyTrie]
  | e :: qt => by
    rw [descAt_cons]
    simp only [childSlot, emptyTrie, children_mk, Option.getD_none, getD_replicate_none,
      Option.none_bind]
    rw [if_neg (by simp)]

theorem storedB_empty : ∀ q : List Char, storedB emptyTrie q = false
  | [] => rfl
  | e :: qt => by
    rw [storedB_cons]
    simp only [childSlot, emptyTrie, children_mk, Option.getD_none, getD_replicate_none,
      Option.elim_none, ite_self]

/-- Master description of one `insert` call: writing `g` for the longest
prefix of `word` made of `A`-`Z` characters (all of `word` when the word is
valid), the call creates exactly the nodes along `g`, increments
`n_descendants` exactly on the nodes at proper prefixes of `g` (a node
created fresh starts from 0), and touches no other node. -/
theorem descAt_insert (w : List Char) : ∀ (t : Trie) (q : List Char), WF t →
    goodWord q = true →
    descAt (t.insert w).1 q =
      if q <+: w.takeWhile goodChar then
        some ((descAt t q).getD 0 + (if q = w.takeWhile goodChar then 0 else 1))
      else descAt t q := by
  induction w with
  | nil =>
    intro t q _ _
    rw [insert_nil_eq]
    match q with
    | [] => simp
    | d :: qr =>
      rw [if_neg (by simp)]
      rw [descAt_cons, descAt_cons]
      rfl
  | cons c rest ih =>
    intro t q hWF hq
    by_cases hc : 'A' ≤ c ∧ c ≤ 'Z'
    · have hgc : goodChar c = true := goodChar_iff.mpr hc
      have hb := goodChar_bounds hgc
      have htw : (c :: rest).takeWhile goodChar = c :: rest.takeWhile goodChar := by
        simp [List.takeWhile_cons, hgc]
      rw [htw]
      match q with
      | [] =>
        rw [if_pos List.nil_prefix, if_neg (by simp), descAt_nil, descAt_nil,
          insert_cons_n hc]
        rfl
      | d :: qr =>
        obtain ⟨hgd, hqr⟩ := goodWord_cons hq
        have hbd := goodChar_bounds hgd
        rw [descAt_cons, descAt_cons]
        by_cases hdc : d = c
        · subst hdc
          rw [insert_cons_childSlot hc hWF _ (by omega), if_pos rfl]
          simp only [Option.some_bind]
          rw [ih _ qr (WF_childSlot hWF _) hqr]
          have hiffp : (d :: qr <+: d :: rest.takeWhile goodChar) ↔
              (qr <+: rest.takeWhile goodChar) := by
            simp [List.cons_prefix_cons]
          have hiffe : (d :: qr = d :: rest.takeWhile goodChar) ↔
              (qr = rest.takeWhile goodChar) := by simp
          cases hslot : childSlot t (d.toNat - 65) with
          | none =>
            simp only [hslot, Option.getD_none, Option.none_bind]
            by_cases hpre : qr <+: rest.takeWhile goodChar
            · rw [if_pos hpre, if_pos (hiffp.mpr hpre), descAt_empty]
              by_cases hqe : qr = []
              · subst hqe
                simp [hiffe]
              · simp [hqe, hiffe]
            · rw [if_neg hpre, if_neg (fun hx => hpre (hiffp.mp hx)), descAt_empty]
              have hqe : qr ≠ [] := by
                intro h
                subst h
                exact hpre List.nil_prefix
              simp [hqe]
          | some u =>
            simp only [hslot, Option.getD_some, Option.some_bind]
            by_cases hpre : qr <+: rest.takeWhile goodChar
            · rw [if_pos hpre, if_pos (hiffp.mpr hpre)]
              by_cases heq : qr = rest.takeWhile goodChar
              · rw [if_pos heq, if_pos (hiffe.mpr heq)]
              · rw [if_neg heq, if_neg (fun hx => heq (hiffe.mp hx))]
            · rw [if_neg hpre, if_neg (fun hx => hpre (hiffp.mp hx))]
        · have hne : d.toNat - 65 ≠ c.toNat - 65 := by
            intro h
            exact hdc (char_toNat_inj (by omega))
          rw [insert_cons_childSlot hc hWF _ (by omega), if_neg hne]
          rw [if_neg (by
            intro hx
            rw [List.cons_prefix_cons] at hx
            exact hdc hx.1)]
    · have hgc : goodChar c = false := by
        rw [← Bool.not_eq_true]
        intro hg
        exact hc (goodChar_iff.mp hg)
      have htw : (c :: rest).takeWhile goodChar = [] := by
        simp [List.takeWhile_cons, hgc]
      have hins : (t.insert (c :: rest)).1 = t := by
        simp only [Trie.insert, if_neg hc]
      rw [htw, hins]
      match q with
      | [] => simp
      | d :: qr => rw [if_neg (by simp)]

theorem WF_of_childSlot {t : Trie} (hWF : WF t) {j : Nat} {u : Trie}
    (h : childSlot t j = some u) : WF u := by
  have h2 := WF_childSlot hWF j
  rw [h] at h2
  simpa using h2

/-- One `insert` call adds exactly `word` to the stored set (nothing when the
word is invalid, since the `assert` fires before the final node is marked). -/
theorem storedB_insert (w : List Char) : ∀ (t : Trie) (v : List Char), WF t →
    goodWord v = true →
    storedB (t.insert w).1 v = (decide (v = w) || storedB t v) := by
  induction w with
  | nil =>
    intro t v _ _
    rw [insert_nil_eq]
    match v with
    | [] => simp
    | d :: vr =>
      rw [storedB_cons, storedB_cons]
      simp [childSlot]
  | cons c rest ih =>
    intro t v hWF hv
    by_cases hc : 'A' ≤ c ∧ c ≤ 'Z'
    · have hgc : goodChar c = true := goodChar_iff.mpr hc
      have hb := goodChar_bounds hgc
      match v with
      | [] =>
        rw [storedB_nil, insert_cons_is_word hc, storedB_nil]
        simp
      | d :: vr =>
        obtain ⟨hgd, hvr⟩ := goodWord_cons hv
        have hbd := goodChar_bounds hgd
        rw [storedB_cons, storedB_cons]
        by_cases hdc : d = c
        · subst hdc
          rw [insert_cons_childSlot hc hWF _ (by omega), if_pos rfl]
          simp only [hgd, if_true, Option.elim_some]
          rw [ih _ vr (WF_childSlot hWF _) hvr]
          cases hslot : childSlot t (d.toNat - 65) with
          | none => simp [storedB_empty]
          | some u => simp
        · have hne : d.toNat - 65 ≠ c.toNat - 65 := fun h => hdc (char_toNat_inj (by omega))
          rw [insert_cons_childSlot hc hWF _ (by omega), if_neg hne]
          simp [hdc]
    · have hgc : goodChar c = false := by
        rw [← Bool.not_eq_true]
        intro hg
        exact hc (goodChar_iff.mp hg)
      have hins : (t.insert (c :: rest)).1 = t := by
        simp only [Trie.insert, if_neg hc]
      have hvne : v ≠ c :: rest := by
        intro h
        subst h
        obtain ⟨hgd, _⟩ := goodWord_cons hv
        rw [hgd] at hgc
        cases hgc
      rw [hins]
      simp [hvne]

theorem storedB_insertAll (ws : List (List Char)) : ∀ (t : Trie) (v : List Char), WF t →
    goodWord v = true →
    storedB (insertAll t ws) v = (storedB t v || decide (v ∈ ws)) := by
  induction ws with
  | nil =>
    intro t v _ _
    simp [insertAll]
  | cons w ws ih =>
    intro t v hWF hv
    show storedB (insertAll (t.insert w).1 ws) v = _
    rw [ih _ v (WF_insert w t hWF) hv, storedB_insert w t v hWF hv]
    by_cases hvw : v = w
    · simp [hvw]
    · simp [hvw, List.mem_cons]

/-- The stored set of a built trie is exactly the inserted set of words. -/
theorem storedB_buildTrie (ws : List (List Char)) (v : List Char)
    (hv : goodWord v = true) :
    storedB (buildTrie ws) v = decide (v ∈ ws) := by
  rw [buildTrie, storedB_insertAll ws emptyTrie v WF_empty hv, storedB_empty]
  simp

theorem getItem_cons {t : Trie} {c : Char} (vr : List Char) (hWF : WF t)
    (hgc : goodChar c = true) :
    t.getItem (c :: vr) =
      (childSlot t (c.toNat - 65)).elim (.ok none) (fun u => u.getItem vr) := by
  have hb := goodChar_bounds hgc
  obtain ⟨b, ch, n⟩ := t
  cases ch with
  | none =>
    simp only [Trie.getItem, children_mk, childSlot, Option.getD_none,
      getD_replicate_none, Option.elim_none]
  | some cs =>
    have hlen : cs.length = 26 := (WF_childList hWF).1
    have hemp : cs.isEmpty = false := by
      cases cs with
      | nil => simp at hlen
      | cons x xs => rfl
    have hpy : pyGet cs ((c.toNat : Int) - 65) = .ok (cs.getD (c.toNat - 65) none) := by
      have h0 : (0 : Int) ≤ (c.toNat : Int) - 65 := by omega
      have hidx : ((c.toNat : Int) - 65).toNat = c.toNat - 65 := by omega
      rw [pyGet, if_pos h0, if_pos (by omega), hidx]
    simp only [Trie.getItem, children_mk, hemp, Bool.false_eq_true, if_false, hpy,
      childSlot, Option.getD_some]
    cases cs.getD (c.toNat - 65) none <;> simp

theorem contains_cons {t : Trie} {c : Char} (vr : List Char) (hWF : WF t)
    (hgc : goodChar c = true) :
    t.contains (c :: vr) =
      (childSlot t (c.toNat - 65)).elim (.ok false) (fun u => u.contains vr) := by
  rw [Trie.contains, getItem_cons vr hWF hgc]
  cases childSlot t (c.toNat - 65) with
  | none => simp
  | some u =>
    simp only [Option.elim_some]
    rw [Trie.contains]

/-- On valid words and well-formed tries, `__contains__` raises nothing and
agrees with the stored-set predicate. -/
theorem contains_eq_storedB : ∀ (v : List Char) (t : Trie), WF t → goodWord v = true →
    t.contains v = .ok (storedB t v) := by
  intro v
  induction v with
  | nil =>
    intro t _ _
    rfl
  | cons c vr ih =>
    intro t hWF hv
    obtain ⟨hgc, hvr⟩ := goodWord_cons hv
    rw [contains_cons vr hWF hgc, storedB_cons]
    simp only [hgc, if_true]
    cases hslot : childSlot t (c.toNat - 65) with
    | none => simp
    | some u => simp [ih u (WF_of_childSlot hWF hslot) hvr]

theorem takeWhile_of_all {l : List Char} {p : Char → Bool} (h : l.all p = true) :
    l.takeWhile p = l := by
  induction l with
  | nil => rfl
  | cons x xs ih =>
    rw [List.all_cons, Bool.and_eq_true] at h
    simp [List.takeWhile_cons, h.1, ih h.2]

theorem goodWord_takeWhile {w : List Char} (h : goodWord w = true) :
    w.takeWhile goodChar = w := takeWhile_of_all h

theorem goodWord_of_isPre {q v : List Char} (hq : q <+: v) (hv : goodWord v = true) :
    goodWord q = true := by
  obtain ⟨s, rfl⟩ := hq
  rw [goodWord, List.all_append, Bool.and_eq_true] at hv
  exact hv.1

/-- Claim C1: every word of a finite list of `[A-Z]+` words inserted (in any
order, duplicates allowed) into an empty trie is afterwards reported present
by `contains`, with no error raised. -/
theorem C1_insert_contains (ws : List (List Char))
    (hws : ∀ w ∈ ws, w ≠ [] ∧ goodWord w = true) :
    ∀ w ∈ ws, (buildTrie ws).contains w = .ok true := by
  intro w hw
  obtain ⟨-, hgw⟩ := hws w hw
  rw [contains_eq_storedB w _ (WF_buildTrie ws) hgw, storedB_buildTrie ws w hgw]
  simp [hw]

/-- Witness for C1 on a concrete input. -/
theorem C1_witness : (buildTrie [wCAT, wDOG]).contains wDOG = .ok true :=
  C1_insert_contains [wCAT, wDOG] (by decide) wDOG (by decide)

/-- Claim C5 as amended: restricted to strings over `A`-`Z` (the alphabet of
the data model), a never-inserted string is reported absent by `contains`, and
`contains` returns true exactly when `__getitem__` reaches a node and that
node has `is_word` set.  (Unrestricted strings can wrap around Python's
negative indexing, see the counterexample.) -/
theorem C5_amended :
    (∀ (ws : List (List Char)) (v : List Char), goodWord v = true → v ∉ ws →
      (buildTrie ws).contains v = .ok false) ∧
    (∀ (t : Trie) (v : List Char),
      t.contains v = .ok true ↔
        ∃ node, t.getItem v = .ok (some node) ∧ node.is_word = true) := by
  constructor
  · intro ws v hv hvn
    rw [contains_eq_storedB v _ (WF_buildTrie ws) hv, storedB_buildTrie ws v hv]
    simp [hvn]
  · intro t v
    constructor
    · intro hc
      rw [Trie.contains] at hc
      cases hgi : t.getItem v with
      | error e =>
        rw [hgi] at hc
        cases hc
      | ok o =>
        rw [hgi] at hc
        cases o with
        | none => cases hc
        | some node =>
          refine ⟨node, rfl, ?_⟩
          injection hc
    · rintro ⟨node, hgi, hw⟩
      rw [Trie.contains, hgi]
      show Except.ok node.is_word = .ok true
      rw [hw]

/-- Witness for C5 (amended) on a concrete input. -/
theorem C5_witness : (buildTrie [wCAT]).contains wDOG = .ok false :=
  C5_amended.1 [wCAT] wDOG (by decide) (by decide)

/-- Folding the master insert lemma over a word list: a node exists iff it was
on some inserted word's path, and its counter accumulates one unit per insert
operation whose word strictly extends the node's path. -/
theorem descAt_insertAll (ws : List (List Char)) : ∀ (t : Trie) (q : List Char), WF t →
    goodWord q = true → (∀ w ∈ ws, goodWord w = true) →
    descAt (insertAll t ws) q =
      if (descAt t q).isSome ∨ (∃ w ∈ ws, q <+: w) then
        some ((descAt t q).getD 0 +
          ws.countP (fun w => decide (q <+: w) && decide (q ≠ w)))
      else none := by
  induction ws with
  | nil =>
    intro t q _ _ _
    show descAt t q = _
    simp only [List.not_mem_nil, false_and, exists_false, or_false, List.countP_nil,
      Nat.add_zero]
    cases h : descAt t q with
    | none => simp [h]
    | some k => simp [h]
  | cons w ws ih =>
    intro t q hWF hq hall
    have hw : goodWord w = true := hall w (by simp)
    have hws : ∀ u ∈ ws, goodWord u = true := fun u hu => hall u (by simp [hu])
    show descAt (insertAll (t.insert w).1 ws) q = _
    rw [ih _ q (WF_insert w t hWF) hq hws]
    rw [descAt_insert w t q hWF hq, goodWord_takeWhile hw]
    rw [List.countP_cons]
    by_cases hpre : q <+: w
    · rw [if_pos hpre]
      by_cases heq : q = w
      · subst heq
        have hp : (decide (q <+: q) && decide (q ≠ q)) = false := by simp
        rw [hp]
        rw [if_pos (Or.inl (by simp)),
          if_pos (Or.inr ⟨q, by simp, List.prefix_refl q⟩)]
        simp
      · rw [if_neg heq]
        have hp : (decide (q <+: w) && decide (q ≠ w)) = true := by simp [hpre, heq]
        rw [hp]
        rw [if_pos (Or.inl (by simp)), if_pos (Or.inr ⟨w, by simp, hpre⟩)]
        simp only [Option.getD_some, Option.some.injEq]
        rw [if_pos trivial]
        omega
    · rw [if_neg hpre]
      have hp : (decide (q <+: w) && decide (q ≠ w)) = false := by simp [hpre]
      rw [hp]
      have hcond : ((descAt t q).isSome ∨ ∃ u ∈ ws, q <+: u) ↔
          ((descAt t q).isSome ∨ ∃ u ∈ w :: ws, q <+: u) := by
        constructor
        · rintro (h | ⟨u, hu, hp2⟩)
          · exact Or.inl h
          · exact Or.inr ⟨u, by simp [hu], hp2⟩
        · rintro (h | ⟨u, hu, hp2⟩)
          · exact Or.inl h
          · rcases List.mem_cons.mp hu with rfl | hu2
            · exact absurd hp2 hpre
            · exact Or.inr ⟨u, hu2, hp2⟩
      by_cases hc2 : (descAt t q).isSome ∨ ∃ u ∈ ws, q <+: u
      · rw [if_pos hc2, if_pos (hcond.mp hc2)]
        simp
      · rw [if_neg hc2, if_neg (fun h => hc2 (hcond.mpr h))]

/-- Claim C7 as amended: after any sequence of `insert` operations with
`[A-Z]` words starting from an empty trie, a non-root node exists exactly
when its path is a prefix of some inserted word, and its `n_descendants`
equals the number of insert operations (duplicates counted separately) whose
word STRICTLY extends the node's path — i.e. the operations that continued
past the node; an operation ending exactly at the node is not counted.  The
counter is incremented on the node being left (the parent of the edge about
to be taken), not on the node about to be entered. -/
theorem C7_amended (ws : List (List Char)) (q : List Char)
    (hws : ∀ w ∈ ws, goodWord w = true) (hq : goodWord q = true) (hne : q ≠ []) :
    descAt (buildTrie ws) q =
      if ∃ w ∈ ws, q <+: w then
        some (ws.countP (fun w => decide (q <+: w) && decide (q ≠ w)))
      else none := by
  rw [buildTrie, descAt_insertAll ws emptyTrie q WF_empty hq hws, descAt_empty,
    if_neg hne]
  simp

/-- Witness for C7 (amended) on a concrete input: inserting only `"AB"`, the
node for `"A"` has counter 1 (the insertion continued past it). -/
theorem C7_witness :
    descAt (buildTrie [['A', 'B']]) ['A'] =
      if ∃ w ∈ [['A', 'B']], ['A'] <+: w then
        some (([['A', 'B']] : List (List Char)).countP
          (fun w => decide (['A'] <+: w) && decide (['A'] ≠ w)))
      else none :=
  C7_amended [['A', 'B']] ['A'] (by decide) (by decide) (by decide)


theorem takeWhile_good_append : ∀ (v : List Char) (bad : Char) (rest : List Char),
    goodWord v = true → goodChar bad = false →
    (v ++ bad :: rest).takeWhile goodChar = v
  | [], bad, rest, _, hbad => by simp [List.takeWhile_cons, hbad]
  | x :: xs, bad, rest, hv, hbad => by
    obtain ⟨hx, hxs⟩ := goodWord_cons hv
    simp only [List.cons_append, List.takeWhile_cons, hx, if_true]
    rw [takeWhile_good_append xs bad rest hxs hbad]

/-- Claim C10: `insert` is not atomic on error.  If the first `k ≥ 1`
characters of the word are valid and the next one is not, the call raises the
`assert` failure but only after creating the nodes for the first `k`
characters and incrementing `n_descendants` on each of the `k` nodes
preceding the invalid character (the root and the first `k-1` path nodes);
the node for the full valid prefix is created but not incremented, every
other node is untouched, and no rollback happens. -/
theorem C10_partial_insert (t : Trie) (v : List Char) (bad : Char)
    (rest : List Char) (hWF : WF t) (hv : goodWord v = true) (_hk : v ≠ [])
    (hbad : goodChar bad = false) :
    (t.insert (v ++ bad :: rest)).2 = some .assertionError ∧
    (∀ q, q <+: v → q ≠ v →
      descAt (t.insert (v ++ bad :: rest)).1 q = some ((descAt t q).getD 0 + 1)) ∧
    descAt (t.insert (v ++ bad :: rest)).1 v = some ((descAt t v).getD 0) ∧
    (∀ q, goodWord q = true → ¬ q <+: v →
      descAt (t.insert (v ++ bad :: rest)).1 q = descAt t q) := by
  have htw : (v ++ bad :: rest).takeWhile goodChar = v :=
    takeWhile_good_append v bad rest hv hbad
  refine ⟨?_, ?_, ?_, ?_⟩
  · have hbw : goodWord (v ++ bad :: rest) = false := by
      simp [goodWord, List.all_append, List.all_cons, hbad]
    rw [insert_err, hbw]
    rfl
  · intro q hqp hqn
    have hgq := goodWord_of_isPre hqp hv
    rw [descAt_insert _ t q hWF hgq, htw, if_pos hqp, if_neg hqn]
  · rw [descAt_insert _ t v hWF hv, htw, if_pos (List.prefix_refl v), if_pos rfl]
    rfl
  · intro q hgq hqnp
    rw [descAt_insert _ t q hWF hgq, htw, if_neg hqnp]

/-- Witness for C10 on a concrete input: `insert("ABa")` on an empty trie
raises, creates the nodes for `"A"` and `"AB"`, increments the counters of
the root and of the `"A"` node, and leaves the `"AB"` node at 0. -/
theorem C10_witness :
    (emptyTrie.insert ['A', 'B', 'a']).2 = some .assertionError ∧
    descAt (emptyTrie.insert ['A', 'B', 'a']).1 ['A'] = some 1 ∧
    descAt (emptyTrie.insert ['A', 'B', 'a']).1 ['A', 'B'] = some 0 := by
  have h := C10_partial_insert emptyTrie ['A', 'B'] 'a' [] WF_empty (by decide)
    (by decide) (by decide)
  refine ⟨h.1, ?_, ?_⟩
  · have h2 := h.2.1 ['A'] (by decide) (by decide)
    show descAt (emptyTrie.insert (['A', 'B'] ++ ['a'])).1 ['A'] = some 1
    rw [h2]
    rfl
  · have h3 := h.2.2.1
    show descAt (emptyTrie.insert (['A', 'B'] ++ ['a'])).1 ['A', 'B'] = some 0
    rw [h3]
    rfl

/-- `from_words` raises exactly when some uppercased word is invalid; the
first invalid word aborts the loop. -/
theorem fromWordsGo_err (ws : List (List Char)) : ∀ t : Trie,
    (fromWordsGo t ws).2 =
      if ws.all (fun w => goodWord (w.map Char.toUpper)) then none
      else some .assertionError := by
  induction ws with
  | nil =>
    intro t
    rfl
  | cons w ws ih =>
    intro t
    by_cases hw : goodWord (w.map Char.toUpper) = true
    · have h2 : (t.insert (w.map Char.toUpper)).2 = none := by
        rw [insert_err, if_pos hw]
      show (match (t.insert (w.map Char.toUpper)).2 with
        | some err => ((t.insert (w.map Char.toUpper)).1, some err)
        | none => fromWordsGo (t.insert (w.map Char.toUpper)).1 ws).2 = _
      rw [h2, ih, List.all_cons, hw]
      rfl
    · have hwf : goodWord (w.map Char.toUpper) = false := by
        rw [← Bool.not_eq_true]
        exact hw
      have h2 : (t.insert (w.map Char.toUpper)).2 = some .assertionError := by
        rw [insert_err, hwf]
        rfl
      show (match (t.insert (w.map Char.toUpper)).2 with
        | some err => ((t.insert (w.map Char.toUpper)).1, some err)
        | none => fromWordsGo (t.insert (w.map Char.toUpper)).1 ws).2 = _
      rw [h2, List.all_cons, hwf]
      rfl

/-- When every uppercased word is valid, `from_words` runs the whole list:
it is the same as inserting all the uppercased words in order, and no word is
skipped. -/
theorem fromWordsGo_ok (ws : List (List Char)) : ∀ t : Trie,
    (∀ w ∈ ws, goodWord (w.map Char.toUpper) = true) →
    fromWordsGo t ws = (insertAll t (ws.map (fun w => w.map Char.toUpper)), none) := by
  induction ws with
  | nil =>
    intro t _
    rfl
  | cons w ws ih =>
    intro t hall
    have hw : goodWord (w.map Char.toUpper) = true := hall w (by simp)
    have h2 : (t.insert (w.map Char.toUpper)).2 = none := by
      rw [insert_err, if_pos hw]
    show (match (t.insert (w.map Char.toUpper)).2 with
      | some err => ((t.insert (w.map Char.toUpper)).1, some err)
      | none => fromWordsGo (t.insert (w.map Char.toUpper)).1 ws) = _
    rw [h2, ih _ (fun u hu => hall u (by simp [hu]))]
    rfl

/-- Claim C8: `insert(word)` fails — with the `assert` failure the spec calls
`InvalidCharacter` — exactly when `word` has a character outside `A`-`Z`; and
`from_words` is strict: the build fails exactly when some word is invalid
after uppercasing (the error propagates), and when all words are valid none
is skipped — the resulting trie stores exactly the uppercased words. -/
theorem C8_invalid_character :
    (∀ (t : Trie) (w : List Char),
      (t.insert w).2 = some PyErr.assertionError ↔ ∃ c ∈ w, goodChar c = false) ∧
    (∀ ws : List (List Char),
      (Trie.from_words ws).2 = some PyErr.assertionError ↔
        ∃ w ∈ ws, ∃ c ∈ w.map Char.toUpper, goodChar c = false) ∧
    (∀ ws : List (List Char),
      (∀ w ∈ ws, goodWord (w.map Char.toUpper) = true) →
      (Trie.from_words ws).2 = none ∧
      ∀ v, goodWord v = true →
        storedB (Trie.from_words ws).1 v =
          decide (v ∈ ws.map (fun w => w.map Char.toUpper))) := by
  refine ⟨?_, ?_, ?_⟩
  · intro t w
    rw [insert_err]
    by_cases hgw : goodWord w = true
    · rw [if_pos hgw]
      rw [goodWord, List.all_eq_true] at hgw
      constructor
      · intro h
        cases h
      · rintro ⟨c, hc, hbad⟩
        rw [hgw c hc] at hbad
        cases hbad
    · have hf : goodWord w = false := by
        rw [← Bool.not_eq_true]
        exact hgw
      have hex : ∃ c ∈ w, goodChar c = false := by
        have h1 := hf
        rw [goodWord] at h1
        simpa [List.all_eq_false] using h1
      rw [hf]
      simp only [Bool.false_eq_true, if_false]
      exact ⟨fun _ => hex, fun _ => trivial⟩
  · intro ws
    rw [Trie.from_words, fromWordsGo_err]
    by_cases hall : ws.all (fun w => goodWord (w.map Char.toUpper)) = true
    · rw [if_pos hall]
      rw [List.all_eq_true] at hall
      constructor
      · intro h
        cases h
      · rintro ⟨w, hw, c, hc, hbad⟩
        have h2 := hall w hw
        rw [goodWord, List.all_eq_true] at h2
        rw [h2 c hc] at hbad
        cases hbad
    · have hf : ws.all (fun w => goodWord (w.map Char.toUpper)) = false := by
        rw [← Bool.not_eq_true]
        exact hall
      have hex : ∃ w ∈ ws, ∃ c ∈ w.map Char.toUpper, goodChar c = false := by
        rw [List.all_eq_false] at hf
        obtain ⟨w, hw, hbadw⟩ := hf
        have hwf : goodWord (w.map Char.toUpper) = false := by
          rw [← Bool.not_eq_true]
          exact hbadw
        rw [goodWord] at hwf
        refine ⟨w, hw, ?_⟩
        simpa [List.all_eq_false] using hwf
      rw [hf]
      simp only [Bool.false_eq_true, if_false]
      exact ⟨fun _ => hex, fun _ => trivial⟩
  · intro ws hall
    rw [Trie.from_words, fromWordsGo_ok ws emptyTrie hall]
    refine ⟨rfl, ?_⟩
    intro v hv
    show storedB (insertAll emptyTrie (ws.map (fun w => w.map Char.toUpper))) v = _
    rw [storedB_insertAll _ emptyTrie v WF_empty hv, storedB_empty]
    simp

/-- Witness for C8 on a concrete input. -/
theorem C8_witness : (emptyTrie.insert ['a']).2 = some PyErr.assertionError :=
  (C8_invalid_character.1 emptyTrie ['a']).mpr ⟨'a', by decide, by decide⟩

/-! ### Traverse lemmas -/

@[simp] theorem matchesB_nil_nil : matchesB [] [] = true := rfl

@[simp] theorem matchesB_nil_cons (c : Char) (cs : List Char) :
    matchesB [] (c :: cs) = false := rfl

@[simp] theorem matchesB_cons_nil (p : Char) (ps : List Char) :
    matchesB (p :: ps) [] = false := rfl

@[simp] theorem matchesB_cons_cons (p : Char) (ps : List Char) (c : Char) (cs : List Char) :
    matchesB (p :: ps) (c :: cs) = ((p = '.' || p = c) && matchesB ps cs) := rfl

theorem matchesB_length : ∀ (ps u : List Char), matchesB ps u = true → u.length = ps.length
  | [], [], _ => rfl
  | [], _ :: _, h => by cases h
  | _ :: _, [], h => by cases h
  | p :: ps, c :: cs, h => by
    rw [matchesB_cons_cons, Bool.and_eq_true] at h
    simp [matchesB_length ps cs h.2]

theorem storedB_good : ∀ (u : List Char) (t : Trie), storedB t u = true → goodWord u = true
  | [], _, _ => rfl
  | c :: cs, t, h => by
    rw [storedB_cons] at h
    by_cases hgc : goodChar c = true
    · rw [if_pos hgc] at h
      cases hslot : childSlot t (c.toNat - 65) with
      | none =>
        rw [hslot] at h
        cases h
      | some u =>
        rw [hslot, Option.elim_some] at h
        rw [goodWord, List.all_cons, hgc, Bool.true_and]
        exact storedB_good cs u h
    · rw [if_neg hgc] at h
      cases h

@[simp] theorem traverseGo_nil (t : Trie) (acc : List Char) :
    traverseGo [] t acc = (if t.is_word then [acc] else [], none) := rfl

theorem traverseGo_cons_none (c : Char) (rest : List Char) (b : Bool) (n : Nat)
    (acc : List Char) : traverseGo (c :: rest) (Trie.mk b none n) acc = ([], none) := rfl

theorem pyGet_good {cs : List (Option Trie)} (hlen : cs.length = 26) {c : Char}
    (hgc : goodChar c = true) :
    pyGet cs ((c.toNat : Int) - 65) = .ok (cs.getD (c.toNat - 65) none) := by
  have hb := goodChar_bounds hgc
  have h0 : (0 : Int) ≤ (c.toNat : Int) - 65 := by omega
  have hidx : ((c.toNat : Int) - 65).toNat = c.toNat - 65 := by omega
  rw [pyGet, if_pos h0, if_pos (by omega), hidx]

theorem isEmpty_26 {cs : List (Option Trie)} (hlen : cs.length = 26) :
    cs.isEmpty = false := by
  cases cs with
  | nil => simp at hlen
  | cons x xs => rfl

theorem traverseGo_cons_letter {t : Trie} {c : Char} (rest acc : List Char) (hWF : WF t)
    (hgc : goodChar c = true) :
    traverseGo (c :: rest) t acc =
      (childSlot t (c.toNat - 65)).elim ([], none)
        (fun u => traverseGo rest u (acc ++ [c])) := by
  have hdot := goodChar_ne_dot hgc
  obtain ⟨b, ch, n⟩ := t
  cases ch with
  | none =>
    rw [traverseGo_cons_none]
    simp only [childSlot, children_mk, Option.getD_none, getD_replicate_none,
      Option.elim_none]
  | some cs =>
    have hlen : cs.length = 26 := (WF_childList hWF).1
    simp only [traverseGo, children_mk, isEmpty_26 hlen, Bool.false_eq_true, if_false,
      if_neg hdot, pyGet_good hlen hgc, childSlot, Option.getD_some]
    cases cs.getD (c.toNat - 65) none <;> simp

theorem traverseGo_cons_dot {t : Trie} {cs : List (Option Trie)} (rest acc : List Char)
    (hch : t.children = some cs) (hlen : cs.length = 26) :
    traverseGo ('.' :: rest) t acc = kidsLoop (traverseGo rest) acc cs 0 := by
  obtain ⟨b, ch, n⟩ := t
  rw [children_mk] at hch
  subst hch
  simp only [traverseGo, children_mk, isEmpty_26 hlen, Bool.false_eq_true, if_false]
  rw [if_pos trivial]

@[simp] theorem kidsLoop_nil (f : Trie → List Char → List (List Char) × Option PyErr)
    (acc : List Char) (idx : Nat) : kidsLoop f acc [] idx = ([], none) := rfl

theorem kidsLoop_cons_none (f : Trie → List Char → List (List Char) × Option PyErr)
    (acc : List Char) (tl : List (Option Trie)) (idx : Nat) :
    kidsLoop f acc (none :: tl) idx = kidsLoop f acc tl (idx + 1) := rfl

theorem kidsLoop_cons_some_ok (f : Trie → List Char → List (List Char) × Option PyErr)
    (acc : List Char) (child : Trie) (tl : List (Option Trie)) (idx : Nat)
    (hok : (f child (acc ++ [Char.ofNat (idx + 65)])).2 = none) :
    kidsLoop f acc (some child :: tl) idx =
      ((f child (acc ++ [Char.ofNat (idx + 65)])).1 ++ (kidsLoop f acc tl (idx + 1)).1,
        (kidsLoop f acc tl (idx + 1)).2) := by
  show (match (f child (acc ++ [Char.ofNat (idx + 65)])).2 with
    | some err => ((f child (acc ++ [Char.ofNat (idx + 65)])).1, some err)
    | none =>
      ((f child (acc ++ [Char.ofNat (idx + 65)])).1 ++ (kidsLoop f acc tl (idx + 1)).1,
        (kidsLoop f acc tl (idx + 1)).2)) = _
  rw [hok]

/-- Specification of the wildcard loop of `traverse`: given that traversal
with the remaining pattern is already characterized, the loop yields exactly
the words obtained by entering a populated slot `j` (letter `idx + j`) and
matching the rest below it. -/
theorem kidsLoop_spec (rest : List Char)
    (hrec : ∀ (t : Trie) (acc : List Char), WF t →
      (traverseGo rest t acc).2 = none ∧
      ∀ y, y ∈ (traverseGo rest t acc).1 ↔
        ∃ u, y = acc ++ u ∧ matchesB rest u = true ∧ storedB t u = true) :
    ∀ (cs : List (Option Trie)) (idx : Nat) (acc : List Char),
      (∀ x ∈ cs, ∀ u, x = some u → WF u) →
      (kidsLoop (traverseGo rest) acc cs idx).2 = none ∧
      ∀ y, y ∈ (kidsLoop (traverseGo rest) acc cs idx).1 ↔
        ∃ j u w, cs.getD j none = some u ∧
          y = acc ++ (Char.ofNat (idx + j + 65) :: w) ∧ matchesB rest w = true ∧
          storedB u w = true := by
  intro cs
  induction cs with
  | nil =>
    intro idx acc _
    refine ⟨rfl, ?_⟩
    intro y
    simp only [kidsLoop_nil, List.not_mem_nil, false_iff]
    rintro ⟨j, u, w, hget, -⟩
    rw [List.getD_eq_getElem?_getD] at hget
    simp at hget
  | cons x tl ih =>
    intro idx acc hmem
    cases x with
    | none =>
      rw [kidsLoop_cons_none]
      obtain ⟨he, hm⟩ := ih (idx + 1) acc (fun x hx => hmem x (by simp [hx]))
      refine ⟨he, ?_⟩
      intro y
      rw [hm y]
      constructor
      · rintro ⟨j, u, w, hget, hy, hmw, hsw⟩
        refine ⟨j + 1, u, w, by simpa using hget, ?_, hmw, hsw⟩
        rw [hy, show idx + 1 + j + 65 = idx + (j + 1) + 65 from by omega]
      · rintro ⟨j, u, w, hget, hy, hmw, hsw⟩
        cases j with
        | zero =>
          rw [List.getD_cons_zero] at hget
          cases hget
        | succ j =>
          refine ⟨j, u, w, by simpa using hget, ?_, hmw, hsw⟩
          rw [hy, show idx + (j + 1) + 65 = idx + 1 + j + 65 from by omega]
    | some child =>
      have hWFc : WF child := hmem (some child) (by simp) child rfl
      have hchild := hrec child (acc ++ [Char.ofNat (idx + 65)]) hWFc
      rw [kidsLoop_cons_some_ok _ _ _ _ _ hchild.1]
      obtain ⟨he, hm⟩ := ih (idx + 1) acc (fun x hx => hmem x (by simp [hx]))
      refine ⟨he, ?_⟩
      intro y
      simp only [List.mem_append]
      rw [(hchild.2 : ∀ y, _) y, hm y]
      constructor
      · rintro (⟨u, hy, hmu, hsu⟩ | ⟨j, u, w, hget, hy, hmw, hsw⟩)
        · refine ⟨0, child, u, by rw [List.getD_cons_zero], ?_, hmu, hsu⟩
          rw [hy, show idx + 0 + 65 = idx + 65 from by omega]
          simp
        · refine ⟨j + 1, u, w, by simpa using hget, ?_, hmw, hsw⟩
          rw [hy, show idx + 1 + j + 65 = idx + (j + 1) + 65 from by omega]
      · rintro ⟨j, u, w, hget, hy, hmw, hsw⟩
        cases j with
        | zero =>
          rw [List.getD_cons_zero] at hget
          injection hget with hg
          subst hg
          left
          refine ⟨w, ?_, hmw, hsw⟩
          rw [hy, show idx + 0 + 65 = idx + 65 from by omega]
          simp
        | succ j =>
          right
          refine ⟨j, u, w, by simpa using hget, ?_, hmw, hsw⟩
          rw [hy, show idx + (j + 1) + 65 = idx + 1 + j + 65 from by omega]

/-- Specification of `traverse`: on a well-formed trie and a pattern over
`{A-Z, '.'}` it raises nothing and yields exactly the stored words that match
the pattern position by position, each extended with the accumulated word. -/
theorem traverseGo_spec : ∀ (pat : List Char) (t : Trie) (acc : List Char), WF t →
    pat.all patChar = true →
    (traverseGo pat t acc).2 = none ∧
    ∀ y, y ∈ (traverseGo pat t acc).1 ↔
      ∃ u, y = acc ++ u ∧ matchesB pat u = true ∧ storedB t u = true := by
  intro pat
  induction pat with
  | nil =>
    intro t acc _ _
    refine ⟨rfl, ?_⟩
    intro y
    simp only [traverseGo_nil]
    constructor
    · intro hy
      cases hw : t.is_word with
      | false =>
        rw [hw] at hy
        simp at hy
      | true =>
        rw [hw] at hy
        simp only [if_true] at hy
        have hya : y = acc := by simpa using hy
        exact ⟨[], by simp [hya], rfl, by rw [storedB_nil, hw]⟩
    · rintro ⟨u, hy, hmu, hsu⟩
      cases u with
      | cons d w => cases hmu
      | nil =>
        rw [storedB_nil] at hsu
        rw [hsu]
        simp [hy]
  | cons c rest ih =>
    intro t acc hWF hpat
    rw [List.all_cons, Bool.and_eq_true] at hpat
    obtain ⟨hpc, hprest⟩ := hpat
    by_cases hdot : c = '.'
    · subst hdot
      obtain ⟨b, ch, n⟩ := t
      cases ch with
      | none =>
        rw [traverseGo_cons_none]
        refine ⟨rfl, ?_⟩
        intro y
        simp only [List.not_mem_nil, false_iff]
        rintro ⟨u, hy, hmu, hsu⟩
        cases u with
        | nil => cases hmu
        | cons d w =>
          rw [storedB_cons] at hsu
          by_cases hgd : goodChar d = true
          · rw [if_pos hgd] at hsu
            have hcnone : childSlot (Trie.mk b none n) (d.toNat - 65) = none := by
              simp only [childSlot, children_mk, Option.getD_none, getD_replicate_none]
            rw [hcnone, Option.elim_none] at hsu
            cases hsu
          · rw [if_neg hgd] at hsu
            cases hsu
      | some cs =>
        have hlen : cs.length = 26 := (WF_childList hWF).1
        have hmems := (WF_childList hWF).2
        rw [traverseGo_cons_dot rest acc (by rw [children_mk]) hlen]
        have hks := kidsLoop_spec rest (fun t' acc' hWF' => ih t' acc' hWF' hprest)
          cs 0 acc hmems
        refine ⟨hks.1, ?_⟩
        intro y
        rw [hks.2 y]
        constructor
        · rintro ⟨j, u, w, hget, hy, hmw, hsw⟩
          have hj : j < 26 := by
            by_contra hj
            rw [List.getD_eq_getElem?_getD, List.getElem?_eq_none (by omega)] at hget
            cases hget
          have hg : goodChar (Char.ofNat (0 + j + 65)) = true := by
            rw [show 0 + j + 65 = j + 65 from by omega]
            exact goodChar_ofNat hj
          refine ⟨Char.ofNat (0 + j + 65) :: w, hy, ?_, ?_⟩
          · rw [matchesB_cons_cons]
            simp [hmw]
          · rw [storedB_cons, if_pos hg]
            have htn : (Char.ofNat (0 + j + 65)).toNat - 65 = j := by
              rw [show 0 + j + 65 = j + 65 from by omega, toNat_ofNat_valid (by omega)]
              omega
            rw [htn]
            have hcj : childSlot (Trie.mk b (some cs) n) j = cs.getD j none := by
              simp [childSlot]
            rw [hcj, hget, Option.elim_some]
            exact hsw
        · rintro ⟨u, hy, hmu, hsu⟩
          cases u with
          | nil => cases hmu
          | cons d w =>
            rw [storedB_cons] at hsu
            by_cases hgd : goodChar d = true
            case neg =>
              rw [if_neg hgd] at hsu
              cases hsu
            rw [if_pos hgd] at hsu
            have hbd := goodChar_bounds hgd
            cases hslot : childSlot (Trie.mk b (some cs) n) (d.toNat - 65) with
            | none =>
              rw [hslot, Option.elim_none] at hsu
              cases hsu
            | some u' =>
              rw [hslot, Option.elim_some] at hsu
              refine ⟨d.toNat - 65, u', w, ?_, ?_, ?_, hsu⟩
              · rw [← hslot]
                simp [childSlot]
              · rw [hy, show 0 + (d.toNat - 65) + 65 = (d.toNat - 65) + 65 from by omega,
                  good_ofNat_sub hgd]
              · rw [matchesB_cons_cons, Bool.and_eq_true] at hmu
                exact hmu.2
    · have hgc : goodChar c = true := by
        rw [patChar] at hpc
        rcases Bool.or_eq_true_iff.mp hpc with h | h
        · exact absurd (of_decide_eq_true h) hdot
        · exact h
      rw [traverseGo_cons_letter rest acc hWF hgc]
      cases hslot : childSlot t (c.toNat - 65) with
      | none =>
        simp only [Option.elim_none]
        refine ⟨trivial, ?_⟩
        intro y
        simp only [List.not_mem_nil, false_iff]
        rintro ⟨u, hy, hmu, hsu⟩
        cases u with
        | nil => cases hmu
        | cons d w =>
          rw [matchesB_cons_cons, Bool.and_eq_true] at hmu
          rcases Bool.or_eq_true_iff.mp hmu.1 with h | h
          · exact absurd (of_decide_eq_true h) hdot
          · have hd : d = c := (of_decide_eq_true h).symm
            subst hd
            rw [storedB_cons, if_pos hgc, hslot, Option.elim_none] at hsu
            cases hsu
      | some u' =>
        simp only [Option.elim_some]
        obtain ⟨he, hm⟩ := ih u' (acc ++ [c]) (WF_of_childSlot hWF hslot) hprest
        refine ⟨he, ?_⟩
        intro y
        rw [hm y]
        constructor
        · rintro ⟨w, hy, hmw, hsw⟩
          refine ⟨c :: w, by rw [hy]; simp, ?_, ?_⟩
          · rw [matchesB_cons_cons]
            simp [hmw]
          · rw [storedB_cons, if_pos hgc, hslot, Option.elim_some]
            exact hsw
        · rintro ⟨u, hy, hmu, hsu⟩
          cases u with
          | nil => cases hmu
          | cons d w =>
            rw [matchesB_cons_cons, Bool.and_eq_true] at hmu
            rcases Bool.or_eq_true_iff.mp hmu.1 with h | h
            · exact absurd (of_decide_eq_true h) hdot
            · have hd : d = c := (of_decide_eq_true h).symm
              subst hd
              rw [storedB_cons, if_pos hgc, hslot, Option.elim_some] at hsu
              refine ⟨w, by rw [hy]; simp, hmu.2, hsu⟩

/-- Claim C2: on a trie built by inserting any list of `[A-Z]` words, and for
any pattern over `{A-Z, '.'}`, `traverse` raises nothing and yields exactly
the inserted words of the pattern's length that match it position by position
(`'.'` matches any letter, a concrete letter only itself); no other word is
ever yielded. -/
theorem C2_traverse_matches (ws : List (List Char)) (pat : List Char)
    (hws : ∀ w ∈ ws, goodWord w = true) (hpat : pat.all patChar = true) :
    ((buildTrie ws).traverse pat).2 = none ∧
    ∀ y, y ∈ ((buildTrie ws).traverse pat).1 ↔ (y ∈ ws ∧ matchesB pat y = true) := by
  have h := traverseGo_spec pat (buildTrie ws) [] (WF_buildTrie ws) hpat
  refine ⟨h.1, ?_⟩
  intro y
  rw [Trie.traverse, h.2 y]
  constructor
  · rintro ⟨u, hy, hmu, hsu⟩
    have hyu : y = u := by simpa using hy
    subst hyu
    have hgy : goodWord y = true := storedB_good y _ hsu
    rw [storedB_buildTrie ws y hgy] at hsu
    exact ⟨of_decide_eq_true hsu, hmu⟩
  · rintro ⟨hy, hm⟩
    have hgy : goodWord y = true := hws y hy
    refine ⟨y, by simp, hm, ?_⟩
    rw [storedB_buildTrie ws y hgy]
    exact decide_eq_true hy

/-- Witness for C2 on a concrete input. -/
theorem C2_witness :
    ((buildTrie [wCAT, wDOG]).traverse ['.', 'O', '.']).2 = none ∧
    ∀ y, y ∈ ((buildTrie [wCAT, wDOG]).traverse ['.', 'O', '.']).1 ↔
      (y ∈ [wCAT, wDOG] ∧ matchesB ['.', 'O', '.'] y = true) :=
  C2_traverse_matches [wCAT, wDOG] ['.', 'O', '.'] (by decide) (by decide)

theorem patChar_not_dot {c : Char} (hpc : patChar c = true) (hdot : c ≠ '.') :
    goodChar c = true := by
  rw [patChar] at hpc
  rcases Bool.or_eq_true_iff.mp hpc with h | h
  · exact absurd (of_decide_eq_true h) hdot
  · exact h

theorem lexLt_append_lt : ∀ (acc : List Char) (d1 d2 : Char) (u1 u2 : List Char),
    d1 < d2 → lexLt (acc ++ d1 :: u1) (acc ++ d2 :: u2) = true
  | [], d1, d2, u1, u2, h => by simp [lexLt, h]
  | x :: xs, d1, d2, u1, u2, h => by
    simp only [List.cons_append, lexLt]
    rw [if_neg (lt_irrefl x), if_pos trivial]
    exact lexLt_append_lt xs d1 d2 u1 u2 h

theorem ofNat_lt_ofNat {m k : Nat} (hm : m < k) (hk : k < 26) :
    Char.ofNat (m + 65) < Char.ofNat (k + 65) := by
  rw [char_lt_iff, toNat_ofNat_valid (by omega), toNat_ofNat_valid (by omega)]
  omega

/-- The wildcard loop visits slots in ascending letter order, so its yields
are lexicographically sorted: the yields of an earlier slot all start (after
the common accumulated word) with a strictly smaller letter. -/
theorem kidsLoop_sorted (rest : List Char) (hrestv : rest.all patChar = true) :
    ∀ (cs : List (Option Trie)) (idx : Nat) (acc : List Char),
      (∀ x ∈ cs, ∀ u, x = some u → WF u) →
      idx + cs.length ≤ 26 →
      (∀ (t : Trie) (a : List Char), WF t →
        List.Pairwise (fun y z => lexLt y z = true) (traverseGo rest t a).1) →
      List.Pairwise (fun y z => lexLt y z = true)
        (kidsLoop (traverseGo rest) acc cs idx).1 := by
  intro cs
  induction cs with
  | nil =>
    intro idx acc _ _ _
    simp
  | cons x tl ih =>
    intro idx acc hmem hbound hsort
    rw [List.length_cons] at hbound
    cases x with
    | none =>
      rw [kidsLoop_cons_none]
      exact ih (idx + 1) acc (fun x hx => hmem x (by simp [hx])) (by omega) hsort
    | some child =>
      have hWFc : WF child := hmem (some child) (by simp) child rfl
      have hchild := traverseGo_spec rest child (acc ++ [Char.ofNat (idx + 65)]) hWFc hrestv
      rw [kidsLoop_cons_some_ok _ _ _ _ _ hchild.1]
      rw [List.pairwise_append]
      refine ⟨hsort child _ hWFc,
        ih (idx + 1) acc (fun x hx => hmem x (by simp [hx])) (by omega) hsort, ?_⟩
      intro y1 hy1 y2 hy2
      obtain ⟨u1, hyu1, -, -⟩ := (hchild.2 y1).mp hy1
      have hks := kidsLoop_spec rest
        (fun t' a' hw => traverseGo_spec rest t' a' hw hrestv) tl (idx + 1) acc
        (fun x hx => hmem x (by simp [hx]))
      obtain ⟨j, u, w, hget, hyu2, -, -⟩ := (hks.2 y2).mp hy2
      have hj : j < tl.length := by
        by_contra hj
        rw [List.getD_eq_getElem?_getD, List.getElem?_eq_none (by omega)] at hget
        cases hget
      rw [hyu1, hyu2]
      have h1 : (acc ++ [Char.ofNat (idx + 65)]) ++ u1 =
          acc ++ (Char.ofNat (idx + 65) :: u1) := by simp
      rw [h1]
      apply lexLt_append_lt
      rw [show idx + 1 + j + 65 = (idx + 1 + j) + 65 from rfl]
      exact ofNat_lt_ofNat (by omega) (by omega)

/-- The yields of `traverse` are lexicographically strictly sorted. -/
theorem traverseGo_sorted : ∀ (pat : List Char) (t : Trie) (acc : List Char), WF t →
    pat.all patChar = true →
    List.Pairwise (fun y z => lexLt y z = true) (traverseGo pat t acc).1 := by
  intro pat
  induction pat with
  | nil =>
    intro t acc _ _
    simp only [traverseGo_nil]
    cases t.is_word <;> simp
  | cons c rest ih =>
    intro t acc hWF hpat
    rw [List.all_cons, Bool.and_eq_true] at hpat
    obtain ⟨hpc, hprest⟩ := hpat
    by_cases hdot : c = '.'
    · subst hdot
      obtain ⟨b, ch, n⟩ := t
      cases ch with
      | none =>
        rw [traverseGo_cons_none]
        simp
      | some cs =>
        have hlen : cs.length = 26 := (WF_childList hWF).1
        rw [traverseGo_cons_dot rest acc (by rw [children_mk]) hlen]
        exact kidsLoop_sorted rest hprest cs 0 acc (WF_childList hWF).2
          (by omega) (fun t' a' hw => ih t' a' hw hprest)
    · have hgc : goodChar c = true := patChar_not_dot hpc hdot
      rw [traverseGo_cons_letter rest acc hWF hgc]
      cases hslot : childSlot t (c.toNat - 65) with
      | none => simp
      | some u' =>
        simp only [Option.elim_some]
        exact ih u' (acc ++ [c]) (WF_of_childSlot hWF hslot) hprest

/-- Claim C3: for every well-formed trie (in particular every trie the code
can build) and every pattern over `{A-Z, '.'}`, the sequence of words yielded
by `traverse(pattern)` is lexicographically sorted in strictly ascending
order. -/
theorem C3_traverse_sorted (t : Trie) (pat : List Char) (hWF : WF t)
    (hpat : pat.all patChar = true) :
    List.Pairwise (fun y z => lexLt y z = true) (t.traverse pat).1 :=
  traverseGo_sorted pat t [] hWF hpat

/-- Witness for C3 on a concrete input. -/
theorem C3_witness :
    List.Pairwise (fun y z => lexLt y z = true)
      ((buildTrie [wCAT, wCAR, wCARD, wDOG]).traverse ['.', '.', '.']).1 :=
  C3_traverse_sorted (buildTrie [wCAT, wCAR, wCARD, wDOG]) ['.', '.', '.']
    (WF_buildTrie [wCAT, wCAR, wCARD, wDOG]) (by decide)

/-- Claim C6 as amended: `traverse` performs no special validation on the
pattern, but an out-of-alphabet character does NOT simply fail to match.  At a
node with a children list, a pattern character whose code point is at most 38
or at least 91 makes Python's `children[ord(c) - ord('A')]` index fall outside
`[-26, 25]`, so the traversal raises `IndexError` (and yields nothing at that
point); a character with code point in `[39, 64]` (other than `'.'`) wraps
around to a valid slot via negative indexing and can yield spurious results
containing that character, as the counterexample shows. -/
theorem C6_amended (t : Trie) (c : Char) (rest : List Char) (hWF : WF t)
    (hne : t.children.isSome = true) (hc : c.toNat ≤ 38 ∨ 91 ≤ c.toNat) :
    t.traverse (c :: rest) = ([], some PyErr.indexError) := by
  obtain ⟨b, ch, n⟩ := t
  cases ch with
  | none => simp at hne
  | some cs =>
    have hlen : cs.length = 26 := (WF_childList hWF).1
    have hdot : ¬ (c = '.') := by
      intro h
      subst h
      exact absurd hc (by decide)
    have hpyerr : pyGet cs ((c.toNat : Int) - 65) = .error .indexError := by
      rcases hc with h | h
      · rw [pyGet, if_neg (by omega), if_neg (by omega)]
      · rw [pyGet, if_pos (by omega), if_neg (by omega)]
    show traverseGo (c :: rest) (Trie.mk b (some cs) n) [] = _
    simp only [traverseGo, children_mk, isEmpty_26 hlen, Bool.false_eq_true, if_false,
      if_neg hdot, hpyerr]

/-- Witness for C6 (amended) on a concrete input. -/
theorem C6_witness : (buildTrie [wCAT]).traverse ['a'] = ([], some PyErr.indexError) :=
  C6_amended (buildTrie [wCAT]) 'a' [] (WF_buildTrie [wCAT]) (by decide) (by decide)
